import Mathlib

/-!
Verification of `stability_function.py` (nodepy).

The module's arithmetic is numpy floating point over real/complex scalars;
we model real scalars by `ℚ` (exact field arithmetic) and complex scalars by
pairs `ℚ × ℚ`.  Polynomials follow the `numpy.poly1d` representation: a list
of coefficients ordered highest degree first, with leading zeros stripped at
construction (`poly1dStrip`), `order = len(coeffs) - 1`, indexing `p[d]`
returning the degree-`d` coefficient (0 out of range), and `len(p)`
returning the order.
-/

namespace StabilityFunction

/-- Horner evaluation of a highest-degree-first coefficient list, as
`numpy.poly1d.__call__` performs it. -/
def polyEval (cs : List ℚ) (z : ℚ) : ℚ :=
  cs.foldl (fun acc c => acc * z + c) 0

/-- Degree-`d` coefficient of a highest-degree-first coefficient list:
`poly1d.__getitem__`, returning 0 beyond the length. -/
def listCoeff (cs : List ℚ) (d : ℕ) : ℚ :=
  if d < cs.length then cs.getD (cs.length - 1 - d) 0 else 0

/-- The `numpy.poly1d` construction strips leading zero coefficients, keeping a
single `[0]` for the zero polynomial. -/
def poly1dStrip (cs : List ℚ) : List ℚ :=
  match cs.dropWhile (fun c => decide (c = 0)) with
  | [] => [0]
  | l => l

/-- Mirrors `poly1d.order`: number of stored coefficients minus one. -/
def polyOrder (cs : List ℚ) : ℕ :=
  (poly1dStrip cs).length - 1

/-- Mirrors `poly1d.__len__`: it returns the order (NOT the number of coefficients). -/
def poly1dLen (cs : List ℚ) : ℕ :=
  polyOrder cs

/-- Leading (highest-degree) coefficient of the stripped representation. -/
def leadingCoeff (cs : List ℚ) : ℚ :=
  (poly1dStrip cs).headD 0

/-- Indexing `p[m]` for the stored polynomial: degree-`d` coefficient after the
constructor's stripping. -/
def polyCoeffAt (cs : List ℚ) (d : ℕ) : ℚ :=
  listCoeff (poly1dStrip cs) d

/-! ### Complex scalars as rational pairs -/

/-- A complex number `re + im·i` with rational components. -/
abbrev CQ := ℚ × ℚ

def cadd (a b : CQ) : CQ := (a.1 + b.1, a.2 + b.2)

def cmul (a b : CQ) : CQ := (a.1 * b.1 - a.2 * b.2, a.1 * b.2 + a.2 * b.1)

/-- Squared complex magnitude `|a|²`.  Magnitudes are represented throughout
by their squares so as to stay inside `ℚ`; note `|a| ≤ 1 ↔ cabs2 a ≤ 1` and
`|a| = |b| ↔ cabs2 a = cabs2 b` on nonnegative reals. -/
def cabs2 (a : CQ) : ℚ := a.1 ^ 2 + a.2 ^ 2

/-- Complex division `a / b` (the field formula, junk-valued at `b = 0`). -/
def cdiv (a b : CQ) : CQ :=
  ((a.1 * b.1 + a.2 * b.2) / cabs2 b, (a.2 * b.1 - a.1 * b.2) / cabs2 b)

/-- Horner evaluation with complex argument and coefficients. -/
def polyEvalC (cs : List CQ) (z : CQ) : CQ :=
  cs.foldl (fun acc c => cadd (cmul acc z) c) (0, 0)

/-- Lift a real coefficient list to complex coefficients. -/
def liftPoly (cs : List ℚ) : List CQ :=
  cs.map (fun c => (c, 0))

/-! ### The renderer's decision logic (`plot_stability_region`) -/

/-- Line 36: `(m < n) or ((m == n) and (abs(p[m]) < abs(q[n])))`, the
unbounded-stability-region test. -/
def unboundedCheck (p q : List ℚ) : Bool :=
  let m := polyOrder p
  let n := polyOrder q
  decide (m < n) || (decide (m = n) && decide (|polyCoeffAt p m| < |polyCoeffAt q n|))

/-- Lines 36-41: the bounds used by the renderer.  `found` stands for the
rectangle the external collaborator `find_plot_bounds` would return; it is
consulted only on the bounded branch. -/
def stabilityBounds (p q : List ℚ) (found : ℚ × ℚ × ℚ × ℚ) : ℚ × ℚ × ℚ × ℚ :=
  if unboundedCheck p q then
    (-10 * (polyOrder p : ℚ), (polyOrder p : ℚ), -5 * (polyOrder p : ℚ), 5 * (polyOrder p : ℚ))
  else found

/-- Line 42: `np.min(np.abs(np.array(bounds))) < 1.e-14`, the trigger of the
"No stable region found" notice on the bounded branch. -/
def noStableNotice (b : ℚ × ℚ × ℚ × ℚ) : Bool :=
  decide (min (min |b.1| |b.2.1|) (min |b.2.2.1| |b.2.2.2|) < 1 / 10 ^ 14)

/-- Line 64: `if len(q) > 1:` — the guard under which the denominator's
roots are overlaid as pole markers. -/
def polesOverlaid (q : List ℚ) : Bool :=
  decide (1 < poly1dLen q)

/-- Line 40: `stable = lambda z : np.abs(p(z)/q(z)) <= 1.0`, with the
magnitude comparison expressed by squares (`|w| ≤ 1 ↔ |w|² ≤ 1`). -/
def stable (p q : List ℚ) (z : CQ) : Bool :=
  decide (cabs2 (cdiv (polyEvalC (liftPoly p) z) (polyEvalC (liftPoly q) z)) ≤ 1)

/-! ### The magnitude field (lines 49-54 / 87-92)

`R = np.abs(p(Z*scalefac)/q(Z*scalefac))` elementwise over the grid.  A grid
point where the scaled denominator vanishes makes numpy emit an
infinite/undefined (inf or nan) cell value and continue; we model that cell
value by `none`, every other cell by `some` of the squared magnitude. -/

/-- One cell of the magnitude field: `|p(s·z)/q(s·z)|` (as a square), or the
undefined marker when the denominator vanishes at the scaled point. -/
def cellVal (p q : List CQ) (s : ℚ) (z : CQ) : Option ℚ :=
  let num := polyEvalC p (cmul z (s, 0))
  let den := polyEvalC q (cmul z (s, 0))
  if den = ((0 : ℚ), (0 : ℚ)) then none
  else some (cabs2 (cdiv num den))

/-- The whole field `R`, elementwise over the grid `Z`. -/
def magField (p q : List CQ) (s : ℚ) (Z : List (List CQ)) : List (List (Option ℚ)) :=
  Z.map (fun row => row.map (cellVal p q s))

/-! ### Approximant constructors (`pade_exp`, lines 106-121, and `taylor`,
lines 123-131) -/

/-- The numerator coefficient list after `n` iterations of the first loop of
`pade_exp`: `newcoeff = Pcoeffs[0]*(k-n+1.)/(j+k-n+1.)/n`, prepended. -/
def padePstep (k j : ℕ) : ℕ → List ℚ
  | 0 => [1]
  | n + 1 =>
      ((padePstep k j n).headD 0 * ((k : ℚ) - (n + 1) + 1) / ((j : ℚ) + (k : ℚ) - (n + 1) + 1)
          / ((n : ℚ) + 1)) :: padePstep k j n

/-- The denominator coefficient list after `n` iterations of the second loop
of `pade_exp`: `newcoeff = -1.*Qcoeffs[0]*(j-n+1.)/(j+k-n+1.)/n`, prepended. -/
def padeQstep (k j : ℕ) : ℕ → List ℚ
  | 0 => [1]
  | n + 1 =>
      (-1 * (padeQstep k j n).headD 0 * ((j : ℚ) - (n + 1) + 1) / ((j : ℚ) + (k : ℚ) - (n + 1) + 1)
          / ((n : ℚ) + 1)) :: padeQstep k j n

/-- The function `pade_exp(k, j)`: the pair `(P, Q)` of highest-degree-first coefficient
lists, the first loop running `n = 1..k`, the second `n = 1..j`. -/
def pade_exp (k j : ℕ) : List ℚ × List ℚ :=
  (padePstep k j k, padeQstep k j j)

/-- The function `taylor(p)`: coefficients `1/i!` for `i = 0..p`, reversed so the highest
degree comes first (`np.poly1d(coeffs[::-1])`). -/
def taylor (p : ℕ) : List ℚ :=
  (((List.range (p + 1)).map (fun i => 1 / (Nat.factorial i : ℚ)))).reverse

/-- The degree-`n` numerator coefficient produced by the first loop of
`pade_exp` (the value prepended at iteration `n`). -/
def padePcoeff (k j : ℕ) : ℕ → ℚ
  | 0 => 1
  | n + 1 =>
      padePcoeff k j n * ((k : ℚ) - (n + 1) + 1) / ((j : ℚ) + (k : ℚ) - (n + 1) + 1)
        / ((n : ℚ) + 1)

/-- The degree-`n` denominator coefficient produced by the second loop of
`pade_exp`. -/
def padeQcoeff (k j : ℕ) : ℕ → ℚ
  | 0 => 1
  | n + 1 =>
      -1 * padeQcoeff k j n * ((j : ℚ) - (n + 1) + 1) / ((j : ℚ) + (k : ℚ) - (n + 1) + 1)
        / ((n : ℚ) + 1)

/-- First `n` Taylor coefficients (highest index first) of the quotient
`a / b` of two power series with coefficient sequences `a`, `b`, by the
standard division recurrence `c_n = (a_n - ∑_{i<n} b_{i+1} c_{n-1-i}) / b_0`.
This is the mathematical notion of "the Taylor expansion of P(z)/Q(z) about
0" used to state the Pade accuracy property; it is not part of the code. -/
def seriesDivStep (a b : ℕ → ℚ) : ℕ → List ℚ
  | 0 => []
  | n + 1 =>
      ((a n - ∑ i ∈ Finset.range n, b (i + 1) * (seriesDivStep a b n).getD i 0) / b 0)
        :: seriesDivStep a b n

/-- Degree-`n` Taylor coefficient of the quotient of the power series with
coefficient sequences `a` and `b` (requires `b 0 ≠ 0` to be meaningful). -/
def seriesDiv (a b : ℕ → ℚ) (n : ℕ) : ℚ :=
  (seriesDivStep a b (n + 1)).headD 0

/-- Degree-`n` Taylor coefficient of `exp(z)` about 0, namely `1/n!`. -/
def expTaylorCoeff (n : ℕ) : ℚ :=
  1 / (Nat.factorial n : ℚ)

/-! ## Theorems -/

/-- Reading `List.getD` commutes with `List.map` at an in-range index. -/
theorem map_getD {α β : Type} (f : α → β) (l : List α) (n : ℕ) (d : α) (d₂ : β)
    (h : n < l.length) : (l.map f).getD n d₂ = f (l.getD n d) := by
  rw [List.getD_eq_getElem?_getD, List.getD_eq_getElem?_getD, List.getElem?_map,
    List.getElem?_eq_getElem h]
  simp

/-- The stripped representation is never the empty list. -/
theorem poly1dStrip_ne_nil (cs : List ℚ) : poly1dStrip cs ≠ [] := by
  unfold poly1dStrip
  rcases h : cs.dropWhile (fun c => decide (c = 0)) with _ | ⟨a, l⟩ <;> simp

/-- A list whose head is nonzero is already stripped. -/
theorem poly1dStrip_of_headD_ne (c : ℚ) (t : List ℚ) (h : c ≠ 0) :
    poly1dStrip (c :: t) = c :: t := by
  unfold poly1dStrip
  rw [List.dropWhile_cons]
  simp [h]

/-- The highest-degree coefficient of a nonempty list is its head. -/
theorem listCoeff_last (L : List ℚ) (h : L ≠ []) :
    listCoeff L (L.length - 1) = L.headD 0 := by
  rcases L with _ | ⟨c, t⟩
  · simp at h
  · simp [listCoeff, Nat.lt_succ_iff]

/-- Indexing `p[p.order]` gives the leading coefficient. -/
theorem polyCoeffAt_order (p : List ℚ) : polyCoeffAt p (polyOrder p) = leadingCoeff p := by
  unfold polyCoeffAt polyOrder leadingCoeff
  exact listCoeff_last _ (poly1dStrip_ne_nil p)

/-- C3: the renderer takes the unbounded branch — using the fixed rectangle
`(-10m, m, -5m, 5m)` instead of the automatic bound search — exactly when
`m < n`, or `m = n` and `|lead p| < |lead q|`. -/
theorem unbounded_branch_selection (p q : List ℚ) (found : ℚ × ℚ × ℚ × ℚ) :
    (unboundedCheck p q = true ↔
      (polyOrder p < polyOrder q ∨
        (polyOrder p = polyOrder q ∧ |leadingCoeff p| < |leadingCoeff q|))) ∧
    stabilityBounds p q found =
      if polyOrder p < polyOrder q ∨
          (polyOrder p = polyOrder q ∧ |leadingCoeff p| < |leadingCoeff q|) then
        (-10 * (polyOrder p : ℚ), (polyOrder p : ℚ), -5 * (polyOrder p : ℚ),
          5 * (polyOrder p : ℚ))
      else found := by
  have hiff : unboundedCheck p q = true ↔
      (polyOrder p < polyOrder q ∨
        (polyOrder p = polyOrder q ∧ |leadingCoeff p| < |leadingCoeff q|)) := by
    simp [unboundedCheck, polyCoeffAt_order]
  refine ⟨hiff, ?_⟩
  by_cases h : polyOrder p < polyOrder q ∨
      (polyOrder p = polyOrder q ∧ |leadingCoeff p| < |leadingCoeff q|)
  · rw [if_pos h]
    unfold stabilityBounds
    rw [if_pos (hiff.mpr h)]
  · rw [if_neg h]
    unfold stabilityBounds
    rw [if_neg ?_]
    intro hc
    exact h (hiff.mp hc)

/-- C4 counterexample: at bounds `(0, 1, -5, 5)` the notice fires (the
minimum magnitude, 0, is below `1e-14`) although not all four bounds are
below `1e-14` — so "emitted exactly when all four bounds are small" is
false. -/
theorem noStableNotice_not_all_four :
    ¬ (noStableNotice (0, 1, -5, 5) = true ↔
        (|(0 : ℚ)| < 1 / 10 ^ 14 ∧ |(1 : ℚ)| < 1 / 10 ^ 14 ∧
          |(-5 : ℚ)| < 1 / 10 ^ 14 ∧ |(5 : ℚ)| < 1 / 10 ^ 14)) := by
  norm_num [noStableNotice]

/-- C4 (amended): the "no stable region found" notice is emitted exactly
when AT LEAST ONE of the four bounds has magnitude below `1e-14` (the code
compares the minimum of the four magnitudes against the threshold). -/
theorem noStableNotice_iff_any (b : ℚ × ℚ × ℚ × ℚ) :
    noStableNotice b = true ↔
      (|b.1| < 1 / 10 ^ 14 ∨ |b.2.1| < 1 / 10 ^ 14 ∨
        |b.2.2.1| < 1 / 10 ^ 14 ∨ |b.2.2.2| < 1 / 10 ^ 14) := by
  simp [noStableNotice, min_lt_iff, or_assoc]

/-- C5: the code guards the pole overlay by `len(q) > 1`, but `poly1d.__len__`
returns the order, so for the degree-1 denominator `q(z) = 1 - z`
(coefficients `[-1, 1]`) the pole is NOT plotted, against the documented
intent that any denominator of degree ≥ 1 has its roots overlaid. -/
theorem degree_one_pole_not_overlaid :
    polyOrder [-1, 1] = 1 ∧ polesOverlaid [-1, 1] = false := by
  norm_num [polesOverlaid, poly1dLen, polyOrder, poly1dStrip, List.dropWhile]

/-- C6 counterexample: with `p(z) = 1`, `q(z) = 1 - z`, the claim "stable at
`z = 0` and unstable at `z = 3`" is false: `|p(3)/q(3)| = 1/2 ≤ 1`, so `z = 3`
is classified stable. -/
theorem stable_claim_false_at_three :
    ¬ (stable [1] [-1, 1] ((0 : ℚ), (0 : ℚ)) = true ∧
        stable [1] [-1, 1] ((3 : ℚ), (0 : ℚ)) = false) := by
  norm_num [stable, cabs2, cdiv, polyEvalC, liftPoly, cadd, cmul]

/-- C6 (amended): with `p(z) = 1`, `q(z) = 1 - z`, the stability predicate
`|p(z)/q(z)| ≤ 1` classifies both `z = 0` (`|R(0)| = 1`) and `z = 3`
(`|R(3)| = 1/2`) as stable. -/
theorem stable_backward_euler_points :
    stable [1] [-1, 1] ((0 : ℚ), (0 : ℚ)) = true ∧
    stable [1] [-1, 1] ((3 : ℚ), (0 : ℚ)) = true := by
  constructor <;> norm_num [stable, cabs2, cdiv, polyEvalC, liftPoly, cadd, cmul]

/-- C9: the magnitude field has the shape of the grid, each in-range cell
holds `|p(s·Z[i,j]) / q(s·Z[i,j])|` (represented by its square), and the
computation is total: a cell whose scaled point is a root of `q` holds the
undefined/infinite marker `none` instead of aborting. -/
theorem magField_spec (p q : List CQ) (s : ℚ) (Z : List (List CQ)) (i j : ℕ)
    (hi : i < Z.length) (hj : j < (Z.getD i []).length) :
    (magField p q s Z).length = Z.length ∧
    ((magField p q s Z).getD i []).length = (Z.getD i []).length ∧
    ((magField p q s Z).getD i []).getD j none =
      (if polyEvalC q (cmul ((Z.getD i []).getD j (0, 0)) (s, 0)) = ((0 : ℚ), (0 : ℚ)) then
        none
      else
        some (cabs2 (cdiv (polyEvalC p (cmul ((Z.getD i []).getD j (0, 0)) (s, 0)))
          (polyEvalC q (cmul ((Z.getD i []).getD j (0, 0)) (s, 0)))))) := by
  have hrow : (magField p q s Z).getD i [] = ((Z.getD i []).map (cellVal p q s)) := by
    unfold magField
    exact map_getD _ Z i [] [] hi
  refine ⟨by simp [magField], by rw [hrow]; simp, ?_⟩
  rw [hrow, map_getD (cellVal p q s) _ j (0, 0) none hj]
  rfl

/-- C9 witness: a one-cell grid whose point `z = 1` is a root of
`q(z) = z - 1`; the field is defined and the cell holds the undefined
marker. -/
theorem magField_spec_witness :
    ((0 : ℕ) < ([[((1 : ℚ), (0 : ℚ))]] : List (List CQ)).length ∧
      (0 : ℕ) < (([[((1 : ℚ), (0 : ℚ))]] : List (List CQ)).getD 0 []).length) ∧
    ((magField [((1 : ℚ), (0 : ℚ))] [((1 : ℚ), (0 : ℚ)), ((-1 : ℚ), (0 : ℚ))] 1
        [[((1 : ℚ), (0 : ℚ))]]).getD 0 []).getD 0 none = none := by
  have h := magField_spec [((1 : ℚ), (0 : ℚ))] [((1 : ℚ), (0 : ℚ)), ((-1 : ℚ), (0 : ℚ))] 1
    [[((1 : ℚ), (0 : ℚ))]] 0 0 (by simp) (by simp)
  refine ⟨⟨by simp, by simp⟩, ?_⟩
  rw [h.2.2]
  norm_num [polyEvalC, cmul, cadd]

/-! ### Coefficient-list lemmas -/

theorem length_padePstep (k j n : ℕ) : (padePstep k j n).length = n + 1 := by
  induction n with
  | zero => rfl
  | succ n ih => simp [padePstep, ih]

theorem length_padeQstep (k j n : ℕ) : (padeQstep k j n).length = n + 1 := by
  induction n with
  | zero => rfl
  | succ n ih => simp [padeQstep, ih]

theorem headD_padePstep (k j n : ℕ) : (padePstep k j n).headD 0 = padePcoeff k j n := by
  induction n with
  | zero => rfl
  | succ n ih => rw [padePstep, List.headD_cons, ih, padePcoeff]

theorem headD_padeQstep (k j n : ℕ) : (padeQstep k j n).headD 0 = padeQcoeff k j n := by
  induction n with
  | zero => rfl
  | succ n ih => rw [padeQstep, List.headD_cons, ih, padeQcoeff]

theorem getLastD_padePstep (k j n : ℕ) : ∀ d, (padePstep k j n).getLastD d = 1 := by
  induction n with
  | zero => intro d; rfl
  | succ n ih => intro d; rw [padePstep, List.getLastD_cons]; exact ih _

theorem getLastD_padeQstep (k j n : ℕ) : ∀ d, (padeQstep k j n).getLastD d = 1 := by
  induction n with
  | zero => intro d; rfl
  | succ n ih => intro d; rw [padeQstep, List.getLastD_cons]; exact ih _

theorem foldl_mul_zero_add (L : List ℚ) : ∀ a : ℚ, L.foldl (fun x c => x * 0 + c) a = L.getLastD a := by
  induction L with
  | nil => intro a; rfl
  | cons c t ih =>
      intro a
      rw [List.foldl_cons, List.getLastD_cons, show a * 0 + c = c from by ring, ih c]

/-- Horner evaluation at 0 returns the constant (last-listed) coefficient. -/
theorem polyEval_zero (cs : List ℚ) : polyEval cs 0 = cs.getLastD 0 :=
  foldl_mul_zero_add cs 0

/-- How `listCoeff` acts on a cons cell (degree `L.length` is the new head). -/
theorem listCoeff_cons (c : ℚ) (L : List ℚ) (d : ℕ) :
    listCoeff (c :: L) d = if d = L.length then c else listCoeff L d := by
  unfold listCoeff
  simp only [List.length_cons]
  rcases Nat.lt_trichotomy d L.length with h | h | h
  · have h2 : L.length + 1 - 1 - d = (L.length - 1 - d) + 1 := by omega
    rw [if_pos (by omega : d < L.length + 1), h2, List.getD_cons_succ,
      if_neg (by omega : ¬d = L.length), if_pos h]
  · have h2 : L.length + 1 - 1 - d = 0 := by omega
    rw [if_pos (by omega : d < L.length + 1), h2, List.getD_cons_zero, if_pos h]
  · rw [if_neg (by omega : ¬d < L.length + 1), if_neg (by omega : ¬d = L.length),
      if_neg (by omega : ¬d < L.length)]

theorem listCoeff_padePstep (k j n d : ℕ) :
    listCoeff (padePstep k j n) d = if d ≤ n then padePcoeff k j d else 0 := by
  induction n with
  | zero =>
      rcases d with _ | d
      · simp [padePstep, listCoeff, padePcoeff]
      · simp [padePstep, listCoeff]
  | succ n ih =>
      rw [padePstep, listCoeff_cons, length_padePstep, headD_padePstep]
      by_cases h : d = n + 1
      · subst h
        rw [if_pos rfl, if_pos le_rfl, padePcoeff]
      · rw [if_neg h, ih]
        by_cases h2 : d ≤ n
        · rw [if_pos h2, if_pos (by omega)]
        · rw [if_neg h2, if_neg (by omega)]

theorem listCoeff_padeQstep (k j n d : ℕ) :
    listCoeff (padeQstep k j n) d = if d ≤ n then padeQcoeff k j d else 0 := by
  induction n with
  | zero =>
      rcases d with _ | d
      · simp [padeQstep, listCoeff, padeQcoeff]
      · simp [padeQstep, listCoeff]
  | succ n ih =>
      rw [padeQstep, listCoeff_cons, length_padeQstep, headD_padeQstep]
      by_cases h : d = n + 1
      · subst h
        rw [if_pos rfl, if_pos le_rfl, padeQcoeff]
      · rw [if_neg h, ih]
        by_cases h2 : d ≤ n
        · rw [if_pos h2, if_pos (by omega)]
        · rw [if_neg h2, if_neg (by omega)]

/-- A nonempty list with nonzero head is its own stripped representation. -/
theorem poly1dStrip_of_ne (L : List ℚ) (hne : L ≠ []) (h : L.headD 0 ≠ 0) :
    poly1dStrip L = L := by
  rcases L with _ | ⟨c, t⟩
  · simp at hne
  · exact poly1dStrip_of_headD_ne c t (by simpa using h)

/-! ### Closed forms for the Pade coefficients -/

theorem padePcoeff_closed (k j : ℕ) : ∀ n, n ≤ k →
    padePcoeff k j n =
      ((k.descFactorial n : ℚ) * ((j + k - n).factorial : ℚ)) /
        (((j + k).factorial : ℚ) * (n.factorial : ℚ)) := by
  intro n
  induction n with
  | zero =>
      intro _
      have e2 : ((j + k).factorial : ℚ) ≠ 0 := by
        rw [Nat.cast_ne_zero]
        exact Nat.factorial_ne_zero _
      simp [padePcoeff, div_self e2]
  | succ n ih =>
      intro h
      have hn : n ≤ k := by omega
      have hjk : n < j + k := by omega
      rw [padePcoeff, ih hn]
      have h1 : (k : ℚ) - (n + 1) + 1 = ((k - n : ℕ) : ℚ) := by
        rw [Nat.cast_sub hn]
        ring
      have h2 : (j : ℚ) + (k : ℚ) - (n + 1) + 1 = ((j + k - n : ℕ) : ℚ) := by
        rw [Nat.cast_sub (by omega : n ≤ j + k)]
        push_cast
        ring
      rw [h1, h2, Nat.descFactorial_succ,
        show j + k - n = (j + k - (n + 1)) + 1 from by omega, Nat.factorial_succ,
        show (j + k - (n + 1)) + 1 = j + k - n from by omega,
        Nat.factorial_succ]
      have e1 : ((j + k - n : ℕ) : ℚ) ≠ 0 := by
        rw [Nat.cast_ne_zero]
        omega
      have e2 : ((j + k).factorial : ℚ) ≠ 0 := by
        rw [Nat.cast_ne_zero]
        exact Nat.factorial_ne_zero _
      have e3 : ((n.factorial : ℕ) : ℚ) ≠ 0 := by
        rw [Nat.cast_ne_zero]
        exact Nat.factorial_ne_zero _
      have e4 : ((n : ℚ) + 1) ≠ 0 := by positivity
      push_cast
      field_simp
      ring

theorem padeQcoeff_closed (k j : ℕ) : ∀ n, n ≤ j →
    padeQcoeff k j n =
      (-1) ^ n * ((j.descFactorial n : ℚ) * ((j + k - n).factorial : ℚ)) /
        (((j + k).factorial : ℚ) * (n.factorial : ℚ)) := by
  intro n
  induction n with
  | zero =>
      intro _
      have e2 : ((j + k).factorial : ℚ) ≠ 0 := by
        rw [Nat.cast_ne_zero]
        exact Nat.factorial_ne_zero _
      simp [padeQcoeff, div_self e2]
  | succ n ih =>
      intro h
      have hn : n ≤ j := by omega
      rw [padeQcoeff, ih hn]
      have h1 : (j : ℚ) - (n + 1) + 1 = ((j - n : ℕ) : ℚ) := by
        rw [Nat.cast_sub hn]
        ring
      have h2 : (j : ℚ) + (k : ℚ) - (n + 1) + 1 = ((j + k - n : ℕ) : ℚ) := by
        rw [Nat.cast_sub (by omega : n ≤ j + k)]
        push_cast
        ring
      rw [h1, h2, Nat.descFactorial_succ,
        show j + k - n = (j + k - (n + 1)) + 1 from by omega, Nat.factorial_succ,
        show (j + k - (n + 1)) + 1 = j + k - n from by omega,
        Nat.factorial_succ, pow_succ]
      have e1 : ((j + k - n : ℕ) : ℚ) ≠ 0 := by
        rw [Nat.cast_ne_zero]
        omega
      have e2 : ((j + k).factorial : ℚ) ≠ 0 := by
        rw [Nat.cast_ne_zero]
        exact Nat.factorial_ne_zero _
      have e3 : ((n.factorial : ℕ) : ℚ) ≠ 0 := by
        rw [Nat.cast_ne_zero]
        exact Nat.factorial_ne_zero _
      have e4 : ((n : ℚ) + 1) ≠ 0 := by positivity
      push_cast
      field_simp
      ring

theorem padePcoeff_pos (k j n : ℕ) (h : n ≤ k) : 0 < padePcoeff k j n := by
  rw [padePcoeff_closed k j n h]
  have h1 : 0 < (k.descFactorial n : ℚ) := by
    rw [show (0 : ℚ) = ((0 : ℕ) : ℚ) from rfl, Nat.cast_lt]
    exact Nat.pos_of_ne_zero (fun hz => by
      rw [Nat.descFactorial_eq_zero_iff_lt] at hz
      omega)
  have h2 : (0 : ℚ) < ((j + k - n).factorial : ℚ) := by
    rw [show (0 : ℚ) = ((0 : ℕ) : ℚ) from rfl, Nat.cast_lt]
    exact (j + k - n).factorial_pos
  have h3 : (0 : ℚ) < ((j + k).factorial : ℚ) := by
    rw [show (0 : ℚ) = ((0 : ℕ) : ℚ) from rfl, Nat.cast_lt]
    exact (j + k).factorial_pos
  have h4 : (0 : ℚ) < (n.factorial : ℚ) := by
    rw [show (0 : ℚ) = ((0 : ℕ) : ℚ) from rfl, Nat.cast_lt]
    exact n.factorial_pos
  exact div_pos (mul_pos h1 h2) (mul_pos h3 h4)

theorem padeQcoeff_ne_zero (k j n : ℕ) (h : n ≤ j) : padeQcoeff k j n ≠ 0 := by
  rw [padeQcoeff_closed k j n h]
  have h1 : 0 < (j.descFactorial n : ℚ) := by
    rw [show (0 : ℚ) = ((0 : ℕ) : ℚ) from rfl, Nat.cast_lt]
    exact Nat.pos_of_ne_zero (fun hz => by
      rw [Nat.descFactorial_eq_zero_iff_lt] at hz
      omega)
  have h2 : (0 : ℚ) < ((j + k - n).factorial : ℚ) := by
    rw [show (0 : ℚ) = ((0 : ℕ) : ℚ) from rfl, Nat.cast_lt]
    exact (j + k - n).factorial_pos
  have h3 : (0 : ℚ) < ((j + k).factorial : ℚ) := by
    rw [show (0 : ℚ) = ((0 : ℕ) : ℚ) from rfl, Nat.cast_lt]
    exact (j + k).factorial_pos
  have h4 : (0 : ℚ) < (n.factorial : ℚ) := by
    rw [show (0 : ℚ) = ((0 : ℕ) : ℚ) from rfl, Nat.cast_lt]
    exact n.factorial_pos
  have : (-1 : ℚ) ^ n ≠ 0 := by
    intro hz
    have := pow_ne_zero n (by norm_num : (-1 : ℚ) ≠ 0)
    exact this hz
  exact div_ne_zero (mul_ne_zero this (ne_of_gt (mul_pos h1 h2))) (ne_of_gt (mul_pos h3 h4))

/-- C1: `pade_exp(k, j)` returns `P`, `Q` with `P(0) = Q(0) = 1`,
`deg P = k` and `deg Q = j`. -/
theorem pade_exp_basic (k j : ℕ) :
    polyEval (pade_exp k j).1 0 = 1 ∧ polyEval (pade_exp k j).2 0 = 1 ∧
    polyOrder (pade_exp k j).1 = k ∧ polyOrder (pade_exp k j).2 = j := by
  have hPne : padePstep k j k ≠ [] :=
    List.ne_nil_of_length_pos (by rw [length_padePstep]; omega)
  have hQne : padeQstep k j j ≠ [] :=
    List.ne_nil_of_length_pos (by rw [length_padeQstep]; omega)
  have hPhead : (padePstep k j k).headD 0 ≠ 0 := by
    rw [headD_padePstep]
    exact ne_of_gt (padePcoeff_pos k j k le_rfl)
  have hQhead : (padeQstep k j j).headD 0 ≠ 0 := by
    rw [headD_padeQstep]
    exact padeQcoeff_ne_zero k j j le_rfl
  refine ⟨?_, ?_, ?_, ?_⟩
  · rw [show (pade_exp k j).1 = padePstep k j k from rfl, polyEval_zero, getLastD_padePstep]
  · rw [show (pade_exp k j).2 = padeQstep k j j from rfl, polyEval_zero, getLastD_padeQstep]
  · rw [show (pade_exp k j).1 = padePstep k j k from rfl]
    unfold polyOrder
    rw [poly1dStrip_of_ne _ hPne hPhead, length_padePstep]
    omega
  · rw [show (pade_exp k j).2 = padeQstep k j j from rfl]
    unfold polyOrder
    rw [poly1dStrip_of_ne _ hQne hQhead, length_padeQstep]
    omega

/-! ### Taylor lemmas and C7 -/

theorem taylor_zero : taylor 0 = [1] := by
  norm_num [taylor, List.range_succ, Nat.factorial]

theorem taylor_succ (p : ℕ) :
    taylor (p + 1) = (1 / ((p + 1).factorial : ℚ)) :: taylor p := by
  unfold taylor
  rw [List.range_succ, List.map_append, List.reverse_append]
  simp

theorem length_taylor (p : ℕ) : (taylor p).length = p + 1 := by
  simp [taylor]

theorem taylor_getLastD (p : ℕ) : ∀ d, (taylor p).getLastD d = 1 := by
  induction p with
  | zero => intro d; rw [taylor_zero]; rfl
  | succ p ih => intro d; rw [taylor_succ, List.getLastD_cons]; exact ih _

theorem taylor_headD (p : ℕ) : (taylor p).headD 0 = 1 / (p.factorial : ℚ) := by
  rcases p with _ | p
  · rw [taylor_zero]
    norm_num
  · rw [taylor_succ]
    rfl

theorem listCoeff_taylor (p d : ℕ) :
    listCoeff (taylor p) d = if d ≤ p then 1 / (d.factorial : ℚ) else 0 := by
  induction p with
  | zero =>
      rcases d with _ | d
      · simp [taylor_zero, listCoeff]
      · simp [taylor_zero, listCoeff]
  | succ p ih =>
      rw [taylor_succ, listCoeff_cons, length_taylor]
      by_cases h : d = p + 1
      · subst h
        rw [if_pos rfl, if_pos le_rfl]
      · rw [if_neg h, ih]
        by_cases h2 : d ≤ p
        · rw [if_pos h2, if_pos (by omega)]
        · rw [if_neg h2, if_neg (by omega)]

/-- C7: `taylor(p)` has `p + 1` coefficients ordered highest degree first,
degree exactly `p`, degree-`i` coefficient `1/i!` (0 beyond `p`), value 1 at
`z = 0`, and `taylor(0)` is the constant polynomial 1. -/
theorem taylor_spec (p : ℕ) :
    (taylor p).length = p + 1 ∧ polyOrder (taylor p) = p ∧ polyEval (taylor p) 0 = 1 ∧
    (∀ i : ℕ, listCoeff (taylor p) i = if i ≤ p then 1 / (i.factorial : ℚ) else 0) ∧
    taylor 0 = [1] := by
  have hne : taylor p ≠ [] := List.ne_nil_of_length_pos (by rw [length_taylor]; omega)
  have hhd : (taylor p).headD 0 ≠ 0 := by
    rw [taylor_headD]
    exact one_div_ne_zero (by
      rw [Nat.cast_ne_zero]
      exact Nat.factorial_ne_zero _)
  refine ⟨length_taylor p, ?_, ?_, fun i => listCoeff_taylor p i, taylor_zero⟩
  · unfold polyOrder
    rw [poly1dStrip_of_ne _ hne hhd, length_taylor]
    omega
  · rw [polyEval_zero, taylor_getLastD]

/-! ### C8: Pade with zero-degree denominator is the Taylor truncation -/

theorem getD_eq_listCoeff (L : List ℚ) (i : ℕ) (h : i < L.length) :
    L.getD i 0 = listCoeff L (L.length - 1 - i) := by
  unfold listCoeff
  rw [if_pos (by omega), show L.length - 1 - (L.length - 1 - i) = i from by omega]

/-- Two coefficient lists of the same length with the same degree-indexed
coefficients are equal. -/
theorem list_eq_of_listCoeff (L₁ L₂ : List ℚ) (hlen : L₁.length = L₂.length)
    (h : ∀ d, listCoeff L₁ d = listCoeff L₂ d) : L₁ = L₂ := by
  apply List.ext_getElem hlen
  intro i h₁ h₂
  have e1 : L₁.getD i 0 = L₁[i] := by
    rw [List.getD_eq_getElem?_getD, List.getElem?_eq_getElem h₁]
    rfl
  have e2 : L₂.getD i 0 = L₂[i] := by
    rw [List.getD_eq_getElem?_getD, List.getElem?_eq_getElem h₂]
    rfl
  rw [← e1, ← e2, getD_eq_listCoeff _ _ h₁, getD_eq_listCoeff _ _ h₂, hlen, h]

theorem padePcoeff_denzero (k d : ℕ) (h : d ≤ k) : padePcoeff k 0 d = 1 / (d.factorial : ℚ) := by
  rw [padePcoeff_closed k 0 d h]
  have key : (k - d).factorial * k.descFactorial d = k.factorial :=
    Nat.factorial_mul_descFactorial h
  have hnum : (k.descFactorial d : ℚ) * ((0 + k - d).factorial : ℚ) = (k.factorial : ℚ) := by
    rw [show 0 + k - d = k - d from by omega, ← key]
    push_cast
    ring
  rw [hnum, show 0 + k = k from by omega]
  have hkf : (k.factorial : ℚ) ≠ 0 := by
    rw [Nat.cast_ne_zero]
    exact Nat.factorial_ne_zero _
  have hdf : (d.factorial : ℚ) ≠ 0 := by
    rw [Nat.cast_ne_zero]
    exact Nat.factorial_ne_zero _
  field_simp

theorem padePstep_denzero (k n : ℕ) (h : n ≤ k) : padePstep k 0 n = taylor n := by
  apply list_eq_of_listCoeff
  · rw [length_padePstep, length_taylor]
  · intro d
    rw [listCoeff_padePstep, listCoeff_taylor]
    by_cases hd : d ≤ n
    · rw [if_pos hd, if_pos hd, padePcoeff_denzero k d (by omega)]
    · rw [if_neg hd, if_neg hd]

/-- C8: `pade_exp(k, 0)` has exactly the `taylor(k)` coefficient list as
numerator and the constant polynomial 1 as denominator. -/
theorem pade_exp_taylor_roundtrip (k : ℕ) : pade_exp k 0 = (taylor k, [1]) := by
  unfold pade_exp
  rw [padePstep_denzero k k le_rfl]
  rfl

/-! ### C10: the denominator is the flipped-sign numerator of the
transposed approximant -/

theorem padeQcoeff_flip (k j : ℕ) : ∀ n, padeQcoeff k j n = (-1) ^ n * padePcoeff j k n := by
  intro n
  induction n with
  | zero => simp [padeQcoeff, padePcoeff]
  | succ n ih =>
      rw [padeQcoeff, padePcoeff, ih, pow_succ]
      ring

/-- C10: for every `n`, the degree-`n` coefficient of the denominator of
`pade_exp(k, j)` is `(-1)^n` times the degree-`n` coefficient of the
numerator of `pade_exp(j, k)`: `Q_{k,j}(z) = P_{j,k}(-z)`. -/
theorem pade_denominator_flip (k j n : ℕ) :
    listCoeff (pade_exp k j).2 n = (-1) ^ n * listCoeff (pade_exp j k).1 n := by
  rw [show (pade_exp k j).2 = padeQstep k j j from rfl,
    show (pade_exp j k).1 = padePstep j k j from rfl,
    listCoeff_padeQstep, listCoeff_padePstep]
  by_cases h : n ≤ j
  · rw [if_pos h, if_pos h, padeQcoeff_flip]
  · rw [if_neg h, if_neg h]
    ring

/-! ### C2: the Pade accuracy property

The key combinatorial fact is the alternating-sum identity
`∑_{i ≤ n} (-1)^i C(n,i) (j)_i (j+k-i)! = (k)_n (j+k-n)!` for `n ≤ k + j`
(falling factorials), proved by induction via Pascal's rule.  It translates
into the convolution identity "`Q · exp` and `P` share every coefficient of
degree `≤ k + j`", from which the Taylor coefficients of `P/Q` follow by the
division recurrence. -/

theorem alt_pascal_split (d : ℕ → ℤ) (n : ℕ) :
    ∑ i ∈ Finset.range (n + 2), (-1 : ℤ) ^ i * ((n + 1).choose i : ℤ) * d i
      = (∑ i ∈ Finset.range (n + 1), (-1 : ℤ) ^ i * (n.choose i : ℤ) * d i)
        - ∑ i ∈ Finset.range (n + 1), (-1 : ℤ) ^ i * (n.choose i : ℤ) * d (i + 1) := by
  have hg : ∑ i ∈ Finset.range (n + 2), (-1 : ℤ) ^ i * (n.choose i : ℤ) * d i
      = ∑ i ∈ Finset.range (n + 1), (-1 : ℤ) ^ i * (n.choose i : ℤ) * d i := by
    rw [Finset.sum_range_succ, Nat.choose_succ_self]
    push_cast
    ring
  rw [Finset.sum_range_succ' (fun i => (-1 : ℤ) ^ i * ((n + 1).choose i : ℤ) * d i) (n + 1),
    ← hg, Finset.sum_range_succ' (fun i => (-1 : ℤ) ^ i * (n.choose i : ℤ) * d i) (n + 1)]
  have hsplit : ∀ i ∈ Finset.range (n + 1),
      (-1 : ℤ) ^ (i + 1) * (((n + 1).choose (i + 1) : ℕ) : ℤ) * d (i + 1)
        = (-1 : ℤ) ^ (i + 1) * ((n.choose (i + 1) : ℕ) : ℤ) * d (i + 1)
          - (-1 : ℤ) ^ i * ((n.choose i : ℕ) : ℤ) * d (i + 1) := by
    intro i _
    rw [Nat.choose_succ_succ]
    push_cast
    ring
  rw [Finset.sum_congr rfl hsplit, Finset.sum_sub_distrib]
  simp [Nat.choose_zero_right]
  ring

theorem pade_sum_identity (j : ℕ) : ∀ n k, n ≤ k + j →
    ∑ i ∈ Finset.range (n + 1), (-1 : ℤ) ^ i * (n.choose i : ℤ)
        * ((j.descFactorial i : ℤ) * ((j + k - i).factorial : ℤ))
      = (k.descFactorial n : ℤ) * ((j + k - n).factorial : ℤ) := by
  intro n
  induction n with
  | zero =>
      intro k _
      simp
  | succ n ih =>
      intro k h
      rcases k with _ | k
      · have hterm : ∀ i ∈ Finset.range (n + 2),
            (-1 : ℤ) ^ i * ((n + 1).choose i : ℤ)
                * ((j.descFactorial i : ℤ) * ((j + 0 - i).factorial : ℤ))
              = (j.factorial : ℤ) * ((-1 : ℤ) ^ i * ((n + 1).choose i : ℤ)) := by
          intro i hi
          rw [Finset.mem_range] at hi
          have hij : i ≤ j := by omega
          have hff : j.descFactorial i * (j - i).factorial = j.factorial := by
            rw [Nat.mul_comm]
            exact Nat.factorial_mul_descFactorial hij
          have h2 : (j.descFactorial i : ℤ) * ((j - i).factorial : ℤ) = (j.factorial : ℤ) := by
            exact_mod_cast hff
          rw [show j + 0 - i = j - i from by omega]
          linear_combination ((-1 : ℤ) ^ i * ((n + 1).choose i : ℤ)) * h2
        rw [Finset.sum_congr rfl hterm, ← Finset.mul_sum,
          Int.alternating_sum_range_choose_of_ne (by omega : n + 1 ≠ 0),
          Nat.zero_descFactorial_succ]
        push_cast
        ring
      · rw [alt_pascal_split
          (fun i => (j.descFactorial i : ℤ) * ((j + (k + 1) - i).factorial : ℤ)) n]
        have hterm : ∀ i ∈ Finset.range (n + 1),
            (-1 : ℤ) ^ i * (n.choose i : ℤ)
                * ((j.descFactorial i : ℤ) * ((j + (k + 1) - i).factorial : ℤ))
              - (-1 : ℤ) ^ i * (n.choose i : ℤ)
                * ((j.descFactorial (i + 1) : ℤ) * ((j + (k + 1) - (i + 1)).factorial : ℤ))
            = ((k : ℤ) + 1) * ((-1 : ℤ) ^ i * (n.choose i : ℤ)
                * ((j.descFactorial i : ℤ) * ((j + k - i).factorial : ℤ))) := by
          intro i hi
          by_cases hij : i ≤ j
          · have e1 : j + (k + 1) - i = (j + k - i) + 1 := by omega
            have e2 : j + (k + 1) - (i + 1) = j + k - i := by omega
            rw [e1, e2, Nat.descFactorial_succ, Nat.factorial_succ]
            have e4 : ((j + k - i : ℕ) : ℤ) + 1 - ((j - i : ℕ) : ℤ) = (k : ℤ) + 1 := by
              rw [Nat.cast_sub hij, Nat.cast_sub (by omega : i ≤ j + k)]
              push_cast
              ring
            push_cast
            linear_combination ((-1 : ℤ) ^ i * (n.choose i : ℤ) * (j.descFactorial i : ℤ)
              * ((j + k - i).factorial : ℤ)) * e4
          · rw [Nat.descFactorial_of_lt (by omega : j < i),
              Nat.descFactorial_of_lt (by omega : j < i + 1)]
            push_cast
            ring
        rw [← Finset.sum_sub_distrib, Finset.sum_congr rfl hterm, ← Finset.mul_sum,
          ih k (by omega), Nat.succ_descFactorial_succ,
          show j + (k + 1) - (n + 1) = j + k - n from by omega]
        push_cast
        ring

/-- The convolution identity: for `n ≤ k + j`, the degree-`n` coefficient of
`Q(z)·exp(z)` equals the degree-`n` coefficient of `P(z)`. -/
theorem pade_conv (k j n : ℕ) (h : n ≤ k + j) :
    ∑ i ∈ Finset.range (n + 1),
        listCoeff (padeQstep k j j) i * (1 / (((n - i).factorial : ℕ) : ℚ))
      = listCoeff (padePstep k j k) n := by
  have hjk : (((j + k).factorial : ℕ) : ℚ) ≠ 0 := by
    rw [Nat.cast_ne_zero]
    exact Nat.factorial_ne_zero _
  have hnf : ((n.factorial : ℕ) : ℚ) ≠ 0 := by
    rw [Nat.cast_ne_zero]
    exact Nat.factorial_ne_zero _
  have hD : (((j + k).factorial : ℕ) : ℚ) * ((n.factorial : ℕ) : ℚ) ≠ 0 := mul_ne_zero hjk hnf
  apply mul_right_cancel₀ hD
  have hterm : ∀ i ∈ Finset.range (n + 1),
      listCoeff (padeQstep k j j) i * (1 / (((n - i).factorial : ℕ) : ℚ))
          * ((((j + k).factorial : ℕ) : ℚ) * ((n.factorial : ℕ) : ℚ))
        = (((-1 : ℤ) ^ i * (n.choose i : ℤ)
            * ((j.descFactorial i : ℤ) * ((j + k - i).factorial : ℤ)) : ℤ) : ℚ) := by
    intro i hi
    rw [Finset.mem_range] at hi
    rw [listCoeff_padeQstep]
    by_cases hij : i ≤ j
    · rw [if_pos hij, padeQcoeff_closed k j i hij]
      have hch : n.choose i * i.factorial * (n - i).factorial = n.factorial :=
        Nat.choose_mul_factorial_mul_factorial (by omega)
      have hch' : ((n.choose i : ℕ) : ℚ) * ((i.factorial : ℕ) : ℚ)
          * (((n - i).factorial : ℕ) : ℚ) = ((n.factorial : ℕ) : ℚ) := by
        exact_mod_cast hch
      have hne_i : ((i.factorial : ℕ) : ℚ) ≠ 0 := by
        rw [Nat.cast_ne_zero]
        exact Nat.factorial_ne_zero _
      have hne_ni : (((n - i).factorial : ℕ) : ℚ) ≠ 0 := by
        rw [Nat.cast_ne_zero]
        exact Nat.factorial_ne_zero _
      rw [← hch']
      push_cast
      field_simp
      ring
    · rw [if_neg hij, Nat.descFactorial_of_lt (by omega : j < i)]
      push_cast
      ring
  rw [Finset.sum_mul, Finset.sum_congr rfl hterm, ← Int.cast_sum,
    pade_sum_identity j n k (by omega), listCoeff_padePstep]
  by_cases hnk : n ≤ k
  · rw [if_pos hnk, padePcoeff_closed k j n hnk]
    push_cast
    field_simp
  · rw [if_neg hnk, Nat.descFactorial_of_lt (by omega : k < n)]
    push_cast
    ring

/-! ### The division recurrence and the accuracy theorem -/

theorem length_seriesDivStep (a b : ℕ → ℚ) (n : ℕ) : (seriesDivStep a b n).length = n := by
  induction n with
  | zero => rfl
  | succ n ih => simp [seriesDivStep, ih]

theorem seriesDivStep_getD (a b : ℕ → ℚ) : ∀ n i, i < n →
    (seriesDivStep a b n).getD i 0 = seriesDiv a b (n - 1 - i) := by
  intro n
  induction n with
  | zero => intro i hi; omega
  | succ n ih =>
      intro i hi
      rcases i with _ | i
      · rw [seriesDivStep, List.getD_cons_zero, show n + 1 - 1 - 0 = n from by omega]
        rfl
      · rw [seriesDivStep, List.getD_cons_succ, ih i (by omega),
          show n + 1 - 1 - (i + 1) = n - 1 - i from by omega]

/-- The defining recurrence of the quotient-series coefficients. -/
theorem seriesDiv_eq (a b : ℕ → ℚ) (n : ℕ) :
    seriesDiv a b n
      = (a n - ∑ i ∈ Finset.range n, b (i + 1) * seriesDiv a b (n - 1 - i)) / b 0 := by
  have hu : seriesDiv a b n
      = (a n - ∑ i ∈ Finset.range n, b (i + 1) * (seriesDivStep a b n).getD i 0) / b 0 := by
    unfold seriesDiv
    rw [seriesDivStep, List.headD_cons]
  rw [hu]
  congr 2
  apply Finset.sum_congr rfl
  intro i hi
  rw [Finset.mem_range] at hi
  rw [seriesDivStep_getD a b n i hi]

theorem pade_seriesDiv (k j : ℕ) : ∀ n, n ≤ k + j →
    seriesDiv (listCoeff (padePstep k j k)) (listCoeff (padeQstep k j j)) n
      = 1 / ((n.factorial : ℕ) : ℚ) := by
  intro n
  induction n using Nat.strong_induction_on with
  | _ n ih =>
      intro h
      have hQ0 : listCoeff (padeQstep k j j) 0 = 1 := by
        rw [listCoeff_padeQstep, if_pos (by omega)]
        rfl
      have hP : ∀ m, m ≤ k → listCoeff (padePstep k j k) m = padePcoeff k j m := by
        intro m hm
        rw [listCoeff_padePstep, if_pos hm]
      rw [seriesDiv_eq, hQ0, div_one]
      rcases n with _ | m
      · simp only [Finset.range_zero, Finset.sum_empty, sub_zero]
        rw [hP 0 (by omega)]
        norm_num [padePcoeff, Nat.factorial]
      · have hconv := pade_conv k j (m + 1) (by omega)
        rw [Finset.sum_range_succ'
          (fun i => listCoeff (padeQstep k j j) i * (1 / (((m + 1 - i).factorial : ℕ) : ℚ)))
          (m + 1)] at hconv
        have hidx : ∀ i ∈ Finset.range (m + 1),
            listCoeff (padeQstep k j j) (i + 1) * (1 / (((m + 1 - (i + 1)).factorial : ℕ) : ℚ))
              = listCoeff (padeQstep k j j) (i + 1) * (1 / (((m - i).factorial : ℕ) : ℚ)) := by
          intro i _
          rw [show m + 1 - (i + 1) = m - i from by omega]
        rw [Finset.sum_congr rfl hidx, hQ0, one_mul] at hconv
        have hsum : ∑ i ∈ Finset.range (m + 1),
            listCoeff (padeQstep k j j) (i + 1)
              * seriesDiv (listCoeff (padePstep k j k)) (listCoeff (padeQstep k j j))
                  ((m + 1) - 1 - i)
            = ∑ i ∈ Finset.range (m + 1),
                listCoeff (padeQstep k j j) (i + 1) * (1 / (((m - i).factorial : ℕ) : ℚ)) := by
          apply Finset.sum_congr rfl
          intro i hi
          rw [Finset.mem_range] at hi
          rw [show (m + 1) - 1 - i = m - i from by omega, ih (m - i) (by omega) (by omega)]
        rw [hsum]
        have hz : m + 1 - 0 = m + 1 := by omega
        rw [hz] at hconv
        linarith [hconv]

/-- C2: the Taylor expansion of `P(z)/Q(z)` about 0, for
`(P, Q) = pade_exp(k, j)`, agrees with the Taylor expansion of `exp(z)` in
every term of degree at most `k + j`. -/
theorem pade_exp_accuracy (k j n : ℕ) (h : n ≤ k + j) :
    seriesDiv (listCoeff (pade_exp k j).1) (listCoeff (pade_exp k j).2) n
      = expTaylorCoeff n := by
  rw [show (pade_exp k j).1 = padePstep k j k from rfl,
    show (pade_exp k j).2 = padeQstep k j j from rfl]
  exact pade_seriesDiv k j n h

/-- C2 witness: the `(1,1)` Pade approximant (trapezoidal rule) matches the
degree-2 Taylor coefficient of `exp`, `1/2`. -/
theorem pade_exp_accuracy_witness :
    2 ≤ 1 + 1 ∧
    seriesDiv (listCoeff (pade_exp 1 1).1) (listCoeff (pade_exp 1 1).2) 2
      = expTaylorCoeff 2 :=
  ⟨by norm_num, pade_exp_accuracy 1 1 2 (by norm_num)⟩

end StabilityFunction
